import Mathlib

/-!
Verification of the `openevolve` package slice.

The visible source slice of the repository is `src/openevolve/__init__.py`
(the package surface).  The substantive evolutionary core (Population Store,
Selection Policy, Migration Policy, Generation Controller, Checkpoint
Manager) is referenced but not included in the slice, so those components
are modelled here directly from the specification's data model (§3) and
component design (§4), and the claims about them are settled against that
model.
-/

namespace OpenEvolveSpec

/-- The package's public export list `__all__`, embedded from
`src/openevolve/__init__.py` line 9:
`__all__ = ["OpenEvolve", "__version__", "run_evolution"]`. -/
def __all__ : List String := ["OpenEvolve", "__version__", "run_evolution"]

/-- Modelled from the spec: a Program Record (§3) — one candidate program:
identifier, code, lineage, metrics (a mapping from metric name to numeric
score, absent while the record is pending), a feature signature used for
diversity bucketing, the lineage depth, and the owning island.
Metric values are modelled as integers (the spec only requires a numeric,
totally ordered score). -/
structure ProgramRecord where
  id : Nat
  code : String
  parent_ids : List Nat
  metrics : Option (List (String × Int))
  feature_signature : Nat
  generation : Nat
  island_id : Nat
deriving DecidableEq, Repr

/-- Modelled from the spec: the primary metric of a record — the numeric
score under the designated primary metric name `"score"` (the name the
spec's scenarios in §8 use); `0` when absent. -/
def primary_metric (r : ProgramRecord) : Int :=
  match r.metrics with
  | none => 0
  | some ms => (ms.lookup "score").getD 0

/-- A record is scored once the evaluator has produced its metrics (§3:
a record with no metrics is "pending"). -/
def scored (r : ProgramRecord) : Bool :=
  r.metrics.isSome

/-- Modelled from the spec: a feature grid (§3, Island) — a mapping from
bucket key (derived from `feature_signature`) to the single elite
Program Record occupying that bucket. -/
abbrev Grid := List (Nat × ProgramRecord)

/-- Replace (or add) the record occupying bucket `b` of a grid. -/
def gridSet (b : Nat) (r : ProgramRecord) : Grid → Grid
  | [] => [(b, r)]
  | p :: rest => if p.1 = b then (b, r) :: rest else p :: gridSet b r rest

/-- Modelled from the spec: an Island (§3) — an identifier, its feature
grid, and the append-only history of every record ever submitted to the
island (records rejected from elite status are still retained for lineage
bookkeeping, §4.1). -/
structure Island where
  id : Nat
  grid : Grid
  history : List ProgramRecord
deriving DecidableEq, Repr

/-- Modelled from the spec: the result of an `insert` (§4.1):
`Outcome{accepted, bucket, superseded_id?}`. -/
structure Outcome where
  accepted : Bool
  bucket : Nat
  superseded_id : Option Nat
deriving DecidableEq, Repr

/-- Modelled from the spec: `insert` at the island level (§4.1).  The
record's bucket is computed from its `feature_signature`; if the bucket is
empty or the record's primary metric strictly exceeds the current
occupant's, the record becomes the bucket's elite (the displaced record is
retained only in history); otherwise the record is rejected from elite
status but still appended to the island's history. -/
def islandInsert (r : ProgramRecord) (i : Island) : Island × Outcome :=
  let b := r.feature_signature
  match i.grid.lookup b with
  | none =>
      ({ i with grid := gridSet b r i.grid, history := i.history ++ [r] },
       ⟨true, b, none⟩)
  | some occ =>
      if primary_metric occ < primary_metric r then
        ({ i with grid := gridSet b r i.grid, history := i.history ++ [r] },
         ⟨true, b, some occ.id⟩)
      else
        ({ i with history := i.history ++ [r] }, ⟨false, b, none⟩)

/-- The record (if any) that an insert of `r` would evict from its bucket. -/
def evictedBy (r : ProgramRecord) (i : Island) : Option ProgramRecord :=
  match i.grid.lookup r.feature_signature with
  | none => none
  | some occ => if primary_metric occ < primary_metric r then some occ else none

/-- Fold a sequence of inserts over an island. -/
def islandInsertAll : List ProgramRecord → Island → Island
  | [], i => i
  | r :: rs, i => islandInsertAll rs (islandInsert r i).1

/-- Fold a sequence of inserts, also collecting the records evicted from
each bucket, tagged by the bucket they were evicted from. -/
def islandInsertTrace : List ProgramRecord → Island → Island × List (Nat × ProgramRecord)
  | [], i => (i, [])
  | r :: rs, i =>
      let rest := islandInsertTrace rs (islandInsert r i).1
      (rest.1,
       (match evictedBy r i with
        | some occ => [(r.feature_signature, occ)]
        | none => []) ++ rest.2)

/-- An island with the given id, an empty grid and empty history. -/
def emptyIsland (n : Nat) : Island :=
  { id := n, grid := [], history := [] }

/-- Modelled from the spec: the strict "better" order used by `best`
(§4.1): higher primary metric, ties broken by lower generation.  The final
tie-break (earlier insertion order) is realised by never replacing the
incumbent with a record it does not strictly beat. -/
def beats (a b : ProgramRecord) : Prop :=
  primary_metric b < primary_metric a ∨
    (primary_metric a = primary_metric b ∧ a.generation < b.generation)

instance (a b : ProgramRecord) : Decidable (beats a b) := by
  unfold beats; infer_instance

/-- One step of the running-best computation: a later record takes the
best-known title only when it strictly beats the incumbent. -/
def updateBest (cur : Option ProgramRecord) (r : ProgramRecord) : Option ProgramRecord :=
  match cur with
  | none => some r
  | some b => if beats r b then some r else some b

/-- Modelled from the spec: the best record of a history, by primary
metric, ties broken by lower generation, then by earlier insertion order
(§4.1). -/
def bestOf (rs : List ProgramRecord) : Option ProgramRecord :=
  rs.foldl updateBest none

/-- Modelled from the spec: `best(island)` (§4.1), over every record ever
inserted into the island. -/
def best (i : Island) : Option ProgramRecord :=
  bestOf i.history

/-- Modelled from the spec: the Population Store (§3) — owns the set of
islands and, as an arena indexed by identifier (§9), every Program Record
ever inserted. -/
structure Store where
  islands : List Island
  records : List ProgramRecord
deriving DecidableEq, Repr

/-- Replace the island with the given id in a list of islands. -/
def setIsland (i : Island) : List Island → List Island
  | [] => []
  | j :: rest => if j.id = i.id then i :: rest else j :: setIsland i rest

/-- Look up an island by id. -/
def findIsland (islandId : Nat) (s : Store) : Option Island :=
  s.islands.find? (fun i => i.id = islandId)

/-- Modelled from the spec: `insert(record, island_id)` (§4.1) at the store
level.  Fails with `none` (`NotFound`) if the island id is unknown;
otherwise performs the island-level insert and appends the record to the
store's arena. -/
def storeInsert (r : ProgramRecord) (islandId : Nat) (s : Store) :
    Option (Store × Outcome) :=
  match findIsland islandId s with
  | none => none
  | some isl =>
      let step := islandInsert r isl
      some ({ islands := setIsland step.1 s.islands,
              records := s.records ++ [r] }, step.2)

/-- Modelled from the spec: `best(global)` (§4.1) — the best record over
the store's whole arena. -/
def globalBest (s : Store) : Option ProgramRecord :=
  bestOf s.records

/-- The current elites of an island's grid. -/
def elites (i : Island) : List ProgramRecord :=
  i.grid.map Prod.snd

/-- Insert a record into a list kept in descending primary-metric order. -/
def insertSorted (r : ProgramRecord) : List ProgramRecord → List ProgramRecord
  | [] => [r]
  | x :: xs =>
      if primary_metric x < primary_metric r then r :: x :: xs
      else x :: insertSorted r xs

/-- Sort records by descending primary metric. -/
def sortByMetric (rs : List ProgramRecord) : List ProgramRecord :=
  rs.foldr insertSorted []

/-- Modelled from the spec: the top-`n` elites of an island by primary
metric (§4.3), in descending metric order. -/
def topElites (n : Nat) (i : Island) : List ProgramRecord :=
  (sortByMetric (elites i)).take n

/-- Modelled from the spec: a migrated copy is a new Program Record
referencing the same lineage but tagged with the destination island id
(§4.3). -/
def retag (dst : Nat) (r : ProgramRecord) : ProgramRecord :=
  { r with island_id := dst }

/-- Modelled from the spec: one migration transfer (§4.3) — copies of the
source island's top-`n` elites, retagged with the destination island's id,
are inserted into the destination island under the same `insert`
comparison rule as §4.1. -/
def migrate (n : Nat) (src dst : Island) : Island :=
  islandInsertAll ((topElites n src).map (retag dst.id)) dst

/-- Modelled from the spec: a migration step at the store level (§4.3):
only the destination island is replaced; the source island is read but
never written. -/
def migratePair (n : Nat) (srcId dstId : Nat) (s : Store) : Store :=
  match findIsland srcId s, findIsland dstId s with
  | some src, some dst => { s with islands := setIsland (migrate n src dst) s.islands }
  | _, _ => s

/-- Modelled from the spec: a deterministic pseudo-random step (a linear
congruential generator); the Selection Policy's randomness is an explicit
seed so that runs are reproducible (§4.2). -/
def lcg (s : Nat) : Nat :=
  (s * 1103515245 + 12345) % 2147483648

/-- The seed after `n` pseudo-random steps. -/
def lcgIter : Nat → Nat → Nat
  | 0, s => s
  | n + 1, s => lcgIter n (lcg s)

/-- The selectable parents of an island: current elites that are scored
(§3: a pending record must not be selectable as a parent). -/
def selectable (i : Island) : List ProgramRecord :=
  (elites i).filter scored

/-- Modelled from the spec: select one parent (§4.2): with probability
`exploration_pct`/100 (decided by the seed) sample uniformly at random,
otherwise pick greedily by fitness. -/
def selectOne (i : Island) (exploration_pct : Nat) (seed : Nat) : Option ProgramRecord :=
  let pool := selectable i
  if pool.length = 0 then none
  else if seed % 100 < exploration_pct then
    pool.get? (lcg seed % pool.length)
  else
    bestOf pool

/-- Modelled from the spec: `sample_parents(island_id, k)` (§4.1/§4.2) —
select `k` parents from an island, threading the seed deterministically. -/
def sample_parents (i : Island) (k : Nat) (exploration_pct : Nat) (seed : Nat) :
    List ProgramRecord :=
  match k with
  | 0 => []
  | k' + 1 =>
      match selectOne i exploration_pct seed with
      | none => []
      | some p => p :: sample_parents i k' exploration_pct (lcg seed)

/-- Modelled from the spec: the external Sampler contract (§6):
`propose(parents, context) → candidate_code`, with `none` standing for
`SamplerError`. -/
def SamplerFn := List ProgramRecord → Option String

/-- Modelled from the spec: the external Evaluator contract (§6):
`evaluate(candidate_code) → metrics`, with `none` standing for
`EvaluationError`. -/
def EvaluatorFn := String → Option (List (String × Int))

/-- Modelled from the spec: the feature signature derived from the
candidate code (§3: a derived structural descriptor). -/
def sigOf (code : String) : Nat :=
  code.length

/-- Modelled from the spec: build the Program Record for a successfully
evaluated candidate: fresh id, parent lineage, evaluated metrics,
generation `max(parent generations) + 1` (§3). -/
def freshRecord (nextId : Nat) (code : String) (ms : List (String × Int))
    (parents : List ProgramRecord) (islandId : Nat) : ProgramRecord :=
  { id := nextId,
    code := code,
    parent_ids := parents.map ProgramRecord.id,
    metrics := some ms,
    feature_signature := sigOf code,
    generation := (parents.map ProgramRecord.generation).foldl max 0 + 1,
    island_id := islandId }

/-- Modelled from the spec: the run statistics the controller reports (§7):
attempts issued, succeeded, failed. -/
structure RunStats where
  attempts : Nat
  succeeded : Nat
  failed : Nat
deriving DecidableEq, Repr

/-- The controller's per-run mutable state: the store, the statistics, the
pseudo-random seed and the next fresh record id. -/
structure CtrlState where
  store : Store
  stats : RunStats
  seed : Nat
  nextId : Nat
deriving DecidableEq, Repr

/-- Record one failed attempt: the store is untouched. -/
def failAttempt (st : CtrlState) : CtrlState :=
  let stats' : RunStats :=
    ⟨st.stats.attempts + 1, st.stats.succeeded, st.stats.failed + 1⟩
  { st with stats := stats', seed := lcg st.seed }

/-- The parents an attempt samples: one parent from the attempt's island. -/
def attemptParents (islandId exploration_pct : Nat) (st : CtrlState) :
    List ProgramRecord :=
  match findIsland islandId st.store with
  | none => []
  | some isl => sample_parents isl 1 exploration_pct st.seed

/-- Modelled from the spec: one generation attempt of the controller
(§4.4): select parents, invoke the external Sampler, invoke the external
Evaluator, and on success hand the result to `storeInsert`; a sampler or
evaluator failure (or a cancellation, §5) is recorded against the attempt
and applies nothing to the store. -/
def runAttempt (sampler : SamplerFn) (evalFn : EvaluatorFn)
    (islandId exploration_pct : Nat) (cancelled : Bool) (st : CtrlState) : CtrlState :=
  if cancelled then st
  else
    let parents := attemptParents islandId exploration_pct st
    match sampler parents with
    | none => failAttempt st
    | some code =>
        match evalFn code with
        | none => failAttempt st
        | some ms =>
            let r := freshRecord st.nextId code ms parents islandId
            match storeInsert r islandId st.store with
            | none => failAttempt st
            | some step =>
                { store := step.1,
                  stats := ⟨st.stats.attempts + 1, st.stats.succeeded + 1,
                            st.stats.failed⟩,
                  seed := lcg st.seed,
                  nextId := st.nextId + 1 }

/-- Modelled from the spec: the controller's attempt loop (§4.4), bounded
by the generation budget `n`; a single failed attempt never halts the
loop — the loop only stops when the budget is exhausted. -/
def runLoop (sampler : SamplerFn) (evalFn : EvaluatorFn)
    (islandId exploration_pct : Nat) : Nat → CtrlState → CtrlState
  | 0, st => st
  | n + 1, st =>
      runLoop sampler evalFn islandId exploration_pct n
        (runAttempt sampler evalFn islandId exploration_pct false st)

/-- Every grid occupant of every island of the store is a fully-formed,
scored Program Record (§5/§8). -/
def allScored (s : Store) : Prop :=
  ∀ isl ∈ s.islands, ∀ p ∈ isl.grid, scored p.2 = true

instance (s : Store) : Decidable (allScored s) := by
  unfold allScored; infer_instance

/-! ## Checkpoint Manager (§4.5)

Modelled from the spec: `save` captures the full population state as an
opaque persisted token stream and `load` restores it; the core only
requires a byte-exact round trip of the full state (§6).  The persisted
representation is a flat `List Nat` of tokens; `load` is fallible
(`none` standing for `CorruptCheckpoint`). -/

/-- Encode an integer as a sign tag and a magnitude token. -/
def encInt : Int → List Nat
  | Int.ofNat n => [0, n]
  | Int.negSucc n => [1, n]

/-- Decode an integer, returning the remaining tokens. -/
def decInt : List Nat → Option (Int × List Nat)
  | 0 :: n :: ts => some (Int.ofNat n, ts)
  | 1 :: n :: ts => some (Int.negSucc n, ts)
  | _ => none

/-- Encode a string as a length-prefixed run of character codes. -/
def encStr (s : String) : List Nat :=
  s.data.length :: s.data.map Char.toNat

/-- Pop `n` tokens off a stream as characters. -/
def decChars : Nat → List Nat → Option (List Char × List Nat)
  | 0, ts => some ([], ts)
  | _ + 1, [] => none
  | n + 1, t :: ts =>
      match decChars n ts with
      | none => none
      | some (cs, rest) => some (Char.ofNat t :: cs, rest)

/-- Decode a string, returning the remaining tokens. -/
def decStr : List Nat → Option (String × List Nat)
  | [] => none
  | n :: ts =>
      match decChars n ts with
      | none => none
      | some (cs, rest) => some (String.mk cs, rest)

/-- Encode a length-prefixed list. -/
def encList (enc : α → List Nat) (xs : List α) : List Nat :=
  xs.length :: xs.flatMap enc

/-- Decode exactly `n` elements off a stream. -/
def decCount (dec : List Nat → Option (α × List Nat)) :
    Nat → List Nat → Option (List α × List Nat)
  | 0, ts => some ([], ts)
  | n + 1, ts =>
      match dec ts with
      | none => none
      | some (x, ts₁) =>
          match decCount dec n ts₁ with
          | none => none
          | some (xs, ts₂) => some (x :: xs, ts₂)

/-- Decode a length-prefixed list, returning the remaining tokens. -/
def decList (dec : List Nat → Option (α × List Nat)) :
    List Nat → Option (List α × List Nat)
  | [] => none
  | n :: ts => decCount dec n ts

/-- Encode one named metric. -/
def encMetric (m : String × Int) : List Nat :=
  encStr m.1 ++ encInt m.2

/-- Decode one named metric. -/
def decMetric (ts : List Nat) : Option ((String × Int) × List Nat) :=
  match decStr ts with
  | none => none
  | some (k, ts₁) =>
      match decInt ts₁ with
      | none => none
      | some (v, ts₂) => some ((k, v), ts₂)

/-- Encode the optional metrics mapping (tag 0 = pending). -/
def encMetrics : Option (List (String × Int)) → List Nat
  | none => [0]
  | some ms => 1 :: encList encMetric ms

/-- Decode the optional metrics mapping. -/
def decMetrics : List Nat → Option (Option (List (String × Int)) × List Nat)
  | 0 :: ts => some (none, ts)
  | 1 :: ts =>
      match decList decMetric ts with
      | none => none
      | some (ms, rest) => some (some ms, rest)
  | _ => none

/-- Encode a full Program Record, field by field. -/
def encRecord (r : ProgramRecord) : List Nat :=
  r.id :: encStr r.code ++ encList (fun n => [n]) r.parent_ids ++
    encMetrics r.metrics ++ [r.feature_signature, r.generation, r.island_id]

/-- Decode a single token. -/
def decTok : List Nat → Option (Nat × List Nat)
  | [] => none
  | t :: ts => some (t, ts)

/-- Decode a full Program Record. -/
def decRecord (ts : List Nat) : Option (ProgramRecord × List Nat) :=
  match ts with
  | [] => none
  | i :: ts₀ =>
      match decStr ts₀ with
      | none => none
      | some (code, ts₁) =>
          match decList decTok ts₁ with
          | none => none
          | some (ps, ts₂) =>
              match decMetrics ts₂ with
              | none => none
              | some (ms, ts₃) =>
                  match ts₃ with
                  | f :: g :: il :: ts₄ =>
                      some (⟨i, code, ps, ms, f, g, il⟩, ts₄)
                  | _ => none

/-- Encode one grid cell (bucket key and elite). -/
def encCell (p : Nat × ProgramRecord) : List Nat :=
  p.1 :: encRecord p.2

/-- Decode one grid cell. -/
def decCell (ts : List Nat) : Option ((Nat × ProgramRecord) × List Nat) :=
  match ts with
  | [] => none
  | b :: ts₀ =>
      match decRecord ts₀ with
      | none => none
      | some (r, ts₁) => some ((b, r), ts₁)

/-- Encode an island: id, grid, history. -/
def encIsland (i : Island) : List Nat :=
  i.id :: encList encCell i.grid ++ encList encRecord i.history

/-- Decode an island. -/
def decIsland (ts : List Nat) : Option (Island × List Nat) :=
  match ts with
  | [] => none
  | n :: ts₀ =>
      match decList decCell ts₀ with
      | none => none
      | some (g, ts₁) =>
          match decList decRecord ts₁ with
          | none => none
          | some (h, ts₂) => some (⟨n, g, h⟩, ts₂)

/-- Modelled from the spec: `save(store)` (§4.5) — the consistent snapshot
of all islands and all Program Records as a persisted token stream. -/
def save (s : Store) : List Nat :=
  encList encIsland s.islands ++ encList encRecord s.records

/-- Modelled from the spec: `load` (§4.5) — restores a store from a
persisted token stream; `none` stands for `CorruptCheckpoint`. -/
def load (ts : List Nat) : Option Store :=
  match decList decIsland ts with
  | none => none
  | some (isls, ts₁) =>
      match decList decRecord ts₁ with
      | none => none
      | some (rs, ts₂) =>
          match ts₂ with
          | [] => some ⟨isls, rs⟩
          | _ => none

/-! ## Lemmas about the feature grid and `insert` -/

theorem lookup_gridSet_self (b : Nat) (r : ProgramRecord) :
    ∀ g : Grid, (gridSet b r g).lookup b = some r := by
  intro g
  induction g with
  | nil => simp [gridSet, List.lookup]
  | cons p g ih =>
      by_cases hp : p.1 = b
      · simp [gridSet, hp, List.lookup]
      · simp only [gridSet, hp, if_false, List.lookup]
        have : (b == p.1) = false := by
          simp [beq_iff_eq]; exact fun h => hp h.symm
        simp [this, ih]

theorem lookup_gridSet_ne (b b' : Nat) (r : ProgramRecord) (hne : b' ≠ b) :
    ∀ g : Grid, (gridSet b r g).lookup b' = g.lookup b' := by
  intro g
  have hb : (b' == b) = false := beq_eq_false_iff_ne.mpr hne
  induction g with
  | nil => simp [gridSet, List.lookup, hb]
  | cons p g ih =>
      by_cases hp : p.1 = b
      · subst hp
        simp [gridSet, List.lookup, hb]
      · simp only [gridSet, hp, if_false, List.lookup]
        by_cases hb' : b' = p.1
        · simp [hb']
        · have h1 : (b' == p.1) = false := beq_eq_false_iff_ne.mpr hb'
          simp [h1, ih]

theorem islandInsert_occ_mono (r : ProgramRecord) (i : Island) (b : Nat)
    (occ : ProgramRecord) (h : i.grid.lookup b = some occ) :
    ∃ occ', (islandInsert r i).1.grid.lookup b = some occ' ∧
      primary_metric occ ≤ primary_metric occ' := by
  by_cases hb : b = r.feature_signature
  · subst hb
    rw [islandInsert, h]
    by_cases hlt : primary_metric occ < primary_metric r
    · refine ⟨r, ?_, le_of_lt hlt⟩
      simp [hlt, lookup_gridSet_self]
    · exact ⟨occ, by simp [hlt, h], le_refl _⟩
  · refine ⟨occ, ?_, le_refl _⟩
    rw [islandInsert]
    cases hfs : i.grid.lookup r.feature_signature with
    | none => simpa [lookup_gridSet_ne _ _ _ hb] using h
    | some o =>
        by_cases hlt : primary_metric o < primary_metric r
        · simpa [hlt, lookup_gridSet_ne _ _ _ hb] using h
        · simpa [hlt] using h

theorem insertAll_occ_mono (rs : List ProgramRecord) :
    ∀ (i : Island) (b : Nat) (occ : ProgramRecord),
      i.grid.lookup b = some occ →
      ∃ occ', (islandInsertAll rs i).grid.lookup b = some occ' ∧
        primary_metric occ ≤ primary_metric occ' := by
  induction rs with
  | nil => exact fun i b occ h => ⟨occ, h, le_refl _⟩
  | cons r rs ih =>
      intro i b occ h
      obtain ⟨o₁, h₁, hle₁⟩ := islandInsert_occ_mono r i b occ h
      obtain ⟨o₂, h₂, hle₂⟩ := ih (islandInsert r i).1 b o₁ h₁
      exact ⟨o₂, h₂, le_trans hle₁ hle₂⟩

theorem trace_fst (rs : List ProgramRecord) :
    ∀ i : Island, (islandInsertTrace rs i).1 = islandInsertAll rs i := by
  induction rs with
  | nil => intro i; rfl
  | cons r rs ih => intro i; simpa [islandInsertTrace, islandInsertAll] using ih _

theorem evictedBy_insert (r : ProgramRecord) (i : Island) (e : ProgramRecord)
    (h : evictedBy r i = some e) :
    (islandInsert r i).1.grid.lookup r.feature_signature = some r ∧
      primary_metric e ≤ primary_metric r := by
  cases hfs : i.grid.lookup r.feature_signature with
  | none => simp [evictedBy, hfs] at h
  | some o =>
      simp only [evictedBy, hfs] at h
      by_cases hlt : primary_metric o < primary_metric r
      · simp only [if_pos hlt, Option.some.injEq] at h
        subst h
        constructor
        · simp only [islandInsert, hfs, if_pos hlt]
          exact lookup_gridSet_self _ _ _
        · exact le_of_lt hlt
      · simp [if_neg hlt] at h

/-- C2: For every island, every bucket, and every sequence of insert
operations, the primary metric of the record occupying that bucket never
decreases over time: after the inserts, the bucket's elite's primary
metric is greater than or equal to the primary metric of every record
evicted from that bucket along the way. -/
theorem bucket_elite_monotone (rs : List ProgramRecord) :
    ∀ (i : Island) (b : Nat) (e : ProgramRecord),
      (b, e) ∈ (islandInsertTrace rs i).2 →
      ∃ occ', (islandInsertTrace rs i).1.grid.lookup b = some occ' ∧
        primary_metric e ≤ primary_metric occ' := by
  induction rs with
  | nil => intro i b e h; exact absurd h (by simp [islandInsertTrace])
  | cons r rs ih =>
      intro i b e h
      rw [islandInsertTrace] at h ⊢
      simp only [List.mem_append] at h
      rcases h with h | h
      · cases hev : evictedBy r i with
        | none => rw [hev] at h; exact absurd h (by simp)
        | some o =>
            rw [hev] at h
            simp only [List.mem_singleton, Prod.mk.injEq] at h
            obtain ⟨hb, he⟩ := h
            subst hb; subst he
            obtain ⟨h₁, hle₁⟩ := evictedBy_insert r i e hev
            obtain ⟨o₂, h₂, hle₂⟩ :=
              insertAll_occ_mono rs (islandInsert r i).1 r.feature_signature r h₁
            rw [trace_fst]
            exact ⟨o₂, h₂, le_trans hle₁ hle₂⟩
      · exact ih (islandInsert r i).1 b e h

/-- Witness for C2: inserting a score-1 record then a score-2 record into
the same bucket evicts the first, and the bucket's elite dominates it. -/
theorem bucket_elite_monotone_witness :
    ∃ occ', (islandInsertTrace
        [⟨1, "a", [], some [("score", 1)], 0, 0, 0⟩,
         ⟨2, "b", [], some [("score", 2)], 0, 0, 0⟩]
        (emptyIsland 0)).1.grid.lookup 0 = some occ' ∧
      primary_metric ⟨1, "a", [], some [("score", 1)], 0, 0, 0⟩ ≤
        primary_metric occ' :=
  bucket_elite_monotone
    [⟨1, "a", [], some [("score", 1)], 0, 0, 0⟩,
     ⟨2, "b", [], some [("score", 2)], 0, 0, 0⟩]
    (emptyIsland 0) 0 ⟨1, "a", [], some [("score", 1)], 0, 0, 0⟩ (by decide)

/-! ## Lemmas about the `beats` order and `best` -/

theorem beats_trans {a b c : ProgramRecord} (h1 : beats a b) (h2 : beats b c) :
    beats a c := by
  unfold beats at *
  omega

theorem beats_irrefl (a : ProgramRecord) : ¬ beats a a := by
  unfold beats
  omega

theorem beats_of_beats_of_not_beats {r b x : ProgramRecord}
    (h1 : beats r b) (h2 : ¬ beats x b) : beats r x := by
  unfold beats at *
  omega

theorem not_beats_of_beats {a b : ProgramRecord} (h : beats a b) : ¬ beats b a := by
  unfold beats at *
  omega

theorem foldl_updateBest_spec (rs : List ProgramRecord) :
    ∀ b : ProgramRecord,
      ∃ r, rs.foldl updateBest (some b) = some r ∧
        (r = b ∨ (r ∈ rs ∧ beats r b)) ∧
        (∀ x ∈ rs, ¬ beats x r) ∧ ¬ beats b r ∧
        (r = b ∨ ∃ l₁ l₂, rs = l₁ ++ r :: l₂ ∧ ∀ x ∈ l₁, beats r x) := by
  induction rs with
  | nil =>
      intro b
      exact ⟨b, rfl, Or.inl rfl, by simp, beats_irrefl b, Or.inl rfl⟩
  | cons x rs ih =>
      intro b
      by_cases hxb : beats x b
      · obtain ⟨r, hfold, hmem, hnb, hnbx, hfirst⟩ := ih x
        refine ⟨r, ?_, ?_, ?_, ?_, ?_⟩
        · simpa [updateBest, hxb] using hfold
        · rcases hmem with rfl | ⟨hr, hbeats⟩
          · exact Or.inr ⟨List.mem_cons_self _ _, hxb⟩
          · exact Or.inr ⟨List.mem_cons_of_mem _ hr, beats_trans hbeats hxb⟩
        · intro y hy
          rcases List.mem_cons.mp hy with rfl | hy'
          · exact hnbx
          · exact hnb y hy'
        · intro hbr
          exact hnbx (beats_trans hxb hbr)
        · rcases hmem with rfl | ⟨hr, hbeats⟩
          · exact Or.inr ⟨[], rs, rfl, by simp⟩
          · rcases hfirst with rfl | ⟨l₁, l₂, hsplit, hall⟩
            · exact Or.inr ⟨[], rs, rfl, by simp⟩
            · refine Or.inr ⟨x :: l₁, l₂, by rw [hsplit]; rfl, ?_⟩
              intro y hy
              rcases List.mem_cons.mp hy with rfl | hy'
              · exact hbeats
              · exact hall y hy'
      · obtain ⟨r, hfold, hmem, hnb, hnbb, hfirst⟩ := ih b
        refine ⟨r, ?_, ?_, ?_, hnbb, ?_⟩
        · simpa [updateBest, hxb] using hfold
        · rcases hmem with rfl | ⟨hr, hbeats⟩
          · exact Or.inl rfl
          · exact Or.inr ⟨List.mem_cons_of_mem _ hr, hbeats⟩
        · intro y hy
          rcases List.mem_cons.mp hy with rfl | hy'
          · rcases hmem with rfl | ⟨hr, hbeats⟩
            · exact hxb
            · intro hyr
              exact hxb (beats_trans hyr hbeats)
          · exact hnb y hy'
        · rcases hmem with rfl | ⟨hr, hbeats⟩
          · exact Or.inl rfl
          · rcases hfirst with rfl | ⟨l₁, l₂, hsplit, hall⟩
            · exact Or.inl rfl
            · refine Or.inr ⟨x :: l₁, l₂, by rw [hsplit]; rfl, ?_⟩
              intro y hy
              rcases List.mem_cons.mp hy with rfl | hy'
              · exact beats_of_beats_of_not_beats hbeats hxb
              · exact hall y hy'

theorem bestOf_spec (rs : List ProgramRecord) (hne : rs ≠ []) :
    ∃ r, bestOf rs = some r ∧ r ∈ rs ∧ (∀ x ∈ rs, ¬ beats x r) ∧
      ∃ l₁ l₂, rs = l₁ ++ r :: l₂ ∧ ∀ x ∈ l₁, beats r x := by
  cases rs with
  | nil => exact absurd rfl hne
  | cons x rs =>
      obtain ⟨r, hfold, hmem, hnb, hnbx, hfirst⟩ := foldl_updateBest_spec rs x
      refine ⟨r, ?_, ?_, ?_, ?_⟩
      · simpa [bestOf, updateBest] using hfold
      · rcases hmem with rfl | ⟨hr, _⟩
        · exact List.mem_cons_self _ _
        · exact List.mem_cons_of_mem _ hr
      · intro y hy
        rcases List.mem_cons.mp hy with rfl | hy'
        · exact hnbx
        · exact hnb y hy'
      · rcases hmem with rfl | ⟨hr, hbeats⟩
        · exact ⟨[], rs, rfl, by simp⟩
        · rcases hfirst with rfl | ⟨l₁, l₂, hsplit, hall⟩
          · exact ⟨[], rs, rfl, by simp⟩
          · refine ⟨x :: l₁, l₂, by rw [hsplit]; rfl, ?_⟩
            intro y hy
            rcases List.mem_cons.mp hy with rfl | hy'
            · exact hbeats
            · exact hall y hy'

theorem bestOf_mem {rs : List ProgramRecord} {r : ProgramRecord}
    (h : bestOf rs = some r) : r ∈ rs := by
  cases rs with
  | nil => exact absurd h (by simp [bestOf])
  | cons x rs =>
      obtain ⟨r', hfold, hmem, _, _, _⟩ := foldl_updateBest_spec rs x
      have hfold' : bestOf (x :: rs) = some r' := by
        simpa [bestOf, updateBest] using hfold
      rw [hfold'] at h
      cases h
      rcases hmem with rfl | ⟨hr, _⟩
      · exact List.mem_cons_self _ _
      · exact List.mem_cons_of_mem _ hr

theorem islandInsert_history (r : ProgramRecord) (i : Island) :
    (islandInsert r i).1.history = i.history ++ [r] := by
  rw [islandInsert]
  cases hfs : i.grid.lookup r.feature_signature with
  | none => rfl
  | some o =>
      by_cases hlt : primary_metric o < primary_metric r
      · simp [hlt]
      · simp [hlt]

theorem insertAll_history (rs : List ProgramRecord) :
    ∀ i : Island, (islandInsertAll rs i).history = i.history ++ rs := by
  induction rs with
  | nil => intro i; simp [islandInsertAll]
  | cons r rs ih =>
      intro i
      rw [islandInsertAll, ih, islandInsert_history]
      simp

/-- C3: For every island and every nonempty sequence of inserts into a
fresh island, `best(island)` returns the maximum-primary-metric record
among all records ever inserted, with ties broken by lower generation and
then by earlier insertion order; the best record is retrievable from the
island's retained history (never deleted), and any store's global best is
always an element of its record arena. -/
theorem best_returns_true_max (rs : List ProgramRecord) (n : Nat)
    (hne : rs ≠ []) :
    ∃ r, best (islandInsertAll rs (emptyIsland n)) = some r ∧
      r ∈ (islandInsertAll rs (emptyIsland n)).history ∧
      (∀ x ∈ rs, primary_metric x ≤ primary_metric r) ∧
      (∀ x ∈ rs, primary_metric x = primary_metric r →
        r.generation ≤ x.generation) ∧
      (∃ l₁ l₂, rs = l₁ ++ r :: l₂ ∧
        ∀ x ∈ l₁, primary_metric x < primary_metric r ∨
          (primary_metric x = primary_metric r ∧
            r.generation < x.generation)) ∧
      (∀ (s : Store) (p : ProgramRecord), globalBest s = some p →
        p ∈ s.records) := by
  have hhist : (islandInsertAll rs (emptyIsland n)).history = rs := by
    rw [insertAll_history]
    rfl
  obtain ⟨r, hbest, hmem, hnb, l₁, l₂, hsplit, hall⟩ := bestOf_spec rs hne
  refine ⟨r, ?_, ?_, ?_, ?_, ?_, ?_⟩
  · rw [best, hhist]
    exact hbest
  · rw [hhist]
    exact hmem
  · intro x hx
    have := hnb x hx
    unfold beats at this
    omega
  · intro x hx heq
    have := hnb x hx
    unfold beats at this
    omega
  · refine ⟨l₁, l₂, hsplit, ?_⟩
    intro x hx
    have := hall x hx
    unfold beats at this
    rcases this with h | ⟨h1, h2⟩
    · exact Or.inl h
    · exact Or.inr ⟨h1.symm, h2⟩
  · intro s p hp
    exact bestOf_mem hp

/-- Witness for C3: a two-record history where the second record has the
higher score; `best` picks it and it is retained in the history. -/
theorem best_returns_true_max_witness :
    ∃ r, best (islandInsertAll
        [⟨1, "a", [], some [("score", 1)], 0, 0, 0⟩,
         ⟨2, "b", [], some [("score", 2)], 1, 0, 0⟩]
        (emptyIsland 0)) = some r ∧
      r ∈ (islandInsertAll
        [⟨1, "a", [], some [("score", 1)], 0, 0, 0⟩,
         ⟨2, "b", [], some [("score", 2)], 1, 0, 0⟩]
        (emptyIsland 0)).history ∧
      (∀ x ∈ [(⟨1, "a", [], some [("score", 1)], 0, 0, 0⟩ : ProgramRecord),
              ⟨2, "b", [], some [("score", 2)], 1, 0, 0⟩],
        primary_metric x ≤ primary_metric r) ∧
      (∀ x ∈ [(⟨1, "a", [], some [("score", 1)], 0, 0, 0⟩ : ProgramRecord),
              ⟨2, "b", [], some [("score", 2)], 1, 0, 0⟩],
        primary_metric x = primary_metric r →
          r.generation ≤ x.generation) ∧
      (∃ l₁ l₂, [(⟨1, "a", [], some [("score", 1)], 0, 0, 0⟩ : ProgramRecord),
                 ⟨2, "b", [], some [("score", 2)], 1, 0, 0⟩] = l₁ ++ r :: l₂ ∧
        ∀ x ∈ l₁, primary_metric x < primary_metric r ∨
          (primary_metric x = primary_metric r ∧
            r.generation < x.generation)) ∧
      (∀ (s : Store) (p : ProgramRecord), globalBest s = some p →
        p ∈ s.records) :=
  best_returns_true_max
    [⟨1, "a", [], some [("score", 1)], 0, 0, 0⟩,
     ⟨2, "b", [], some [("score", 2)], 1, 0, 0⟩] 0 (by decide)

/-- C4: `insert` makes the record the elite of its feature-signature
bucket if and only if the bucket is empty or the record's primary metric
strictly exceeds the current occupant's; otherwise the grid is unchanged
(so an equal-metric insert does not replace the occupant), and in either
case the record is retained in the island's history for lineage
bookkeeping. -/
theorem insert_strict_improvement (r : ProgramRecord) (i : Island) :
    ((islandInsert r i).2.accepted = true ↔
      i.grid.lookup r.feature_signature = none ∨
        ∃ occ, i.grid.lookup r.feature_signature = some occ ∧
          primary_metric occ < primary_metric r) ∧
    (islandInsert r i).1.grid =
      (if (islandInsert r i).2.accepted = true
        then gridSet r.feature_signature r i.grid
        else i.grid) ∧
    (islandInsert r i).1.history = i.history ++ [r] := by
  refine ⟨?_, ?_, islandInsert_history r i⟩
  · cases hfs : i.grid.lookup r.feature_signature with
    | none => simp [islandInsert, hfs]
    | some o =>
        by_cases hlt : primary_metric o < primary_metric r
        · simp only [islandInsert, hfs, if_pos hlt]
          constructor
          · intro _
            exact Or.inr ⟨o, rfl, hlt⟩
          · intro _
            trivial
        · simp only [islandInsert, hfs, if_neg hlt]
          constructor
          · intro h
            exact absurd h (by simp)
          · rintro (h | ⟨occ, hocc, hlt'⟩)
            · exact absurd h (by simp)
            · cases hocc
              exact absurd hlt' hlt
  · cases hfs : i.grid.lookup r.feature_signature with
    | none => simp [islandInsert, hfs]
    | some o =>
        by_cases hlt : primary_metric o < primary_metric r
        · simp [islandInsert, hfs, hlt]
        · simp [islandInsert, hfs, hlt]

/-! ## Checkpoint round-trip lemmas -/

theorem decInt_encInt (n : Int) (ts : List Nat) :
    decInt (encInt n ++ ts) = some (n, ts) := by
  cases n with
  | ofNat m => rfl
  | negSucc m => rfl

theorem decChars_map (cs : List Char) :
    ∀ ts : List Nat, decChars cs.length (cs.map Char.toNat ++ ts) = some (cs, ts) := by
  induction cs with
  | nil => intro ts; rfl
  | cons c cs ih =>
      intro ts
      simp only [List.map_cons, List.length_cons, List.cons_append, decChars,
        List.append_eq, ih ts, Char.ofNat_toNat]

theorem decStr_encStr (s : String) (ts : List Nat) :
    decStr (encStr s ++ ts) = some (s, ts) := by
  simp only [encStr, List.cons_append, decStr, decChars_map]

theorem decCount_flatMap {α : Type} (enc : α → List Nat)
    (dec : List Nat → Option (α × List Nat))
    (h : ∀ (x : α) (ts : List Nat), dec (enc x ++ ts) = some (x, ts))
    (xs : List α) : ∀ ts : List Nat,
      decCount dec xs.length (xs.flatMap enc ++ ts) = some (xs, ts) := by
  induction xs with
  | nil => intro ts; rfl
  | cons x xs ih =>
      intro ts
      simp only [List.flatMap_cons, List.length_cons, List.append_assoc,
        decCount, h x, ih ts]

theorem decList_encList {α : Type} (enc : α → List Nat)
    (dec : List Nat → Option (α × List Nat))
    (h : ∀ (x : α) (ts : List Nat), dec (enc x ++ ts) = some (x, ts))
    (xs : List α) (ts : List Nat) :
    decList dec (encList enc xs ++ ts) = some (xs, ts) := by
  simp only [encList, List.cons_append, decList, decCount_flatMap enc dec h]

theorem decTok_single (n : Nat) (ts : List Nat) :
    decTok ([n] ++ ts) = some (n, ts) := rfl

theorem decMetric_encMetric (m : String × Int) (ts : List Nat) :
    decMetric (encMetric m ++ ts) = some (m, ts) := by
  simp only [encMetric, List.append_assoc, decMetric, decStr_encStr,
    decInt_encInt]

theorem decMetrics_encMetrics (ms : Option (List (String × Int))) (ts : List Nat) :
    decMetrics (encMetrics ms ++ ts) = some (ms, ts) := by
  cases ms with
  | none => rfl
  | some l =>
      simp only [encMetrics, List.cons_append, decMetrics,
        decList_encList encMetric decMetric decMetric_encMetric]

theorem decRecord_encRecord (r : ProgramRecord) (ts : List Nat) :
    decRecord (encRecord r ++ ts) = some (r, ts) := by
  simp only [encRecord, List.cons_append, List.append_assoc, decRecord,
    decStr_encStr, decList_encList (fun n => [n]) decTok decTok_single,
    decMetrics_encMetrics, List.nil_append]

theorem decCell_encCell (p : Nat × ProgramRecord) (ts : List Nat) :
    decCell (encCell p ++ ts) = some (p, ts) := by
  simp only [encCell, List.cons_append, decCell, decRecord_encRecord]

theorem decIsland_encIsland (i : Island) (ts : List Nat) :
    decIsland (encIsland i ++ ts) = some (i, ts) := by
  simp only [encIsland, List.cons_append, List.append_assoc, decIsland,
    decList_encList encCell decCell decCell_encCell,
    decList_encList encRecord decRecord decRecord_encRecord]

/-- C5: For every store state, `load(save(store))` yields exactly the
original store — identical islands, buckets, elites, and lineage
(checkpoint save followed by load is the identity on population state). -/
theorem load_save_roundtrip (s : Store) : load (save s) = some s := by
  have h1 := decList_encList encIsland decIsland decIsland_encIsland s.islands
    (encList encRecord s.records)
  have h2 := decList_encList encRecord decRecord decRecord_encRecord s.records []
  rw [List.append_nil] at h2
  simp only [save, load, h1, h2]

/-! ## Migration lemmas -/

theorem islandInsert_occ_source (r : ProgramRecord) (i : Island) (b : Nat)
    (r' : ProgramRecord) (h : (islandInsert r i).1.grid.lookup b = some r') :
    i.grid.lookup b = some r' ∨ r' = r := by
  by_cases hb : b = r.feature_signature
  · subst hb
    rw [islandInsert] at h
    cases hfs : i.grid.lookup r.feature_signature with
    | none =>
        rw [hfs] at h
        simp only at h
        rw [lookup_gridSet_self] at h
        cases h
        exact Or.inr rfl
    | some o =>
        rw [hfs] at h
        by_cases hlt : primary_metric o < primary_metric r
        · simp only [if_pos hlt] at h
          rw [lookup_gridSet_self] at h
          cases h
          exact Or.inr rfl
        · simp only [if_neg hlt] at h
          exact Or.inl (hfs.symm.trans h)
  · left
    rw [islandInsert] at h
    cases hfs : i.grid.lookup r.feature_signature with
    | none =>
        rw [hfs] at h
        simpa [lookup_gridSet_ne _ _ _ hb] using h
    | some o =>
        rw [hfs] at h
        by_cases hlt : primary_metric o < primary_metric r
        · simp only [if_pos hlt] at h
          rwa [lookup_gridSet_ne _ _ _ hb] at h
        · simpa [if_neg hlt] using h

theorem insertAll_occ_source (rs : List ProgramRecord) :
    ∀ (i : Island) (b : Nat) (r' : ProgramRecord),
      (islandInsertAll rs i).grid.lookup b = some r' →
      i.grid.lookup b = some r' ∨ r' ∈ rs := by
  induction rs with
  | nil => exact fun i b r' h => Or.inl h
  | cons r rs ih =>
      intro i b r' h
      rcases ih (islandInsert r i).1 b r' h with h' | h'
      · rcases islandInsert_occ_source r i b r' h' with h'' | rfl
        · exact Or.inl h''
        · exact Or.inr (List.mem_cons_self _ _)
      · exact Or.inr (List.mem_cons_of_mem _ h')

theorem islandInsert_id (r : ProgramRecord) (i : Island) :
    (islandInsert r i).1.id = i.id := by
  rw [islandInsert]
  cases hfs : i.grid.lookup r.feature_signature with
  | none => rfl
  | some o =>
      by_cases hlt : primary_metric o < primary_metric r
      · simp [hlt]
      · simp [hlt]

theorem insertAll_id (rs : List ProgramRecord) :
    ∀ i : Island, (islandInsertAll rs i).id = i.id := by
  induction rs with
  | nil => intro i; rfl
  | cons r rs ih =>
      intro i
      rw [islandInsertAll, ih, islandInsert_id]

theorem find?_setIsland_ne (tid : Nat) (i' : Island) (hne : i'.id ≠ tid) :
    ∀ isls : List Island,
      (setIsland i' isls).find? (fun j => j.id = tid) =
        isls.find? (fun j => j.id = tid) := by
  intro isls
  induction isls with
  | nil => rfl
  | cons j rest ih =>
      by_cases hj : j.id = i'.id
      · have hjt : ¬ (j.id = tid) := by rw [hj]; exact hne
        simp [setIsland, hj, List.find?, hne, hjt, ih]
      · simp only [setIsland, hj, if_false]
        by_cases hjt : j.id = tid
        · simp [List.find?, hjt]
        · simp [List.find?, hjt, ih]

/-- C6: A migration step never decreases any destination bucket's elite
primary metric (it follows the same strict-improvement insert rule); every
new destination occupant is a migrated copy tagged with the destination
island id; and the source island is left untouched by the migration. -/
theorem migration_safe (n srcId dstId : Nat) (s : Store) (src dst : Island)
    (h1 : findIsland srcId s = some src) (h2 : findIsland dstId s = some dst)
    (hne : srcId ≠ dstId) :
    (∀ (b : Nat) (occ : ProgramRecord), dst.grid.lookup b = some occ →
       ∃ occ', (migrate n src dst).grid.lookup b = some occ' ∧
         primary_metric occ ≤ primary_metric occ') ∧
    (∀ (b : Nat) (r' : ProgramRecord),
       (migrate n src dst).grid.lookup b = some r' →
       dst.grid.lookup b = some r' ∨
         (r'.island_id = dst.id ∧ ∃ p ∈ topElites n src, r' = retag dst.id p)) ∧
    findIsland srcId (migratePair n srcId dstId s) = some src := by
  refine ⟨?_, ?_, ?_⟩
  · intro b occ hocc
    exact insertAll_occ_mono _ dst b occ hocc
  · intro b r' hr'
    rcases insertAll_occ_source _ dst b r' hr' with h | h
    · exact Or.inl h
    · obtain ⟨p, hp, rfl⟩ := List.mem_map.mp h
      exact Or.inr ⟨rfl, p, hp, rfl⟩
  · have hdst : dst.id = dstId := by
      have := List.find?_some h2
      exact of_decide_eq_true this
    have hmid : (migrate n src dst).id = dst.id := insertAll_id _ dst
    rw [migratePair, h1, h2]
    rw [findIsland] at h1 ⊢
    simp only
    rw [find?_setIsland_ne srcId (migrate n src dst)
      (by rw [hmid, hdst]; exact fun h => hne h.symm)]
    exact h1

/-- Witness for C6: a two-island store where migration carries the score-5
elite of island 0 into island 1. -/
theorem migration_safe_witness :
    (∀ (b : Nat) (occ : ProgramRecord),
       (⟨1, [(0, ⟨3, "c", [], some [("score", 1)], 0, 0, 1⟩)], []⟩ : Island).grid.lookup b = some occ →
       ∃ occ', (migrate 1 ⟨0, [(0, ⟨2, "m", [], some [("score", 5)], 0, 0, 0⟩)], []⟩
           ⟨1, [(0, ⟨3, "c", [], some [("score", 1)], 0, 0, 1⟩)], []⟩).grid.lookup b = some occ' ∧
         primary_metric occ ≤ primary_metric occ') ∧
    (∀ (b : Nat) (r' : ProgramRecord),
       (migrate 1 ⟨0, [(0, ⟨2, "m", [], some [("score", 5)], 0, 0, 0⟩)], []⟩
          ⟨1, [(0, ⟨3, "c", [], some [("score", 1)], 0, 0, 1⟩)], []⟩).grid.lookup b = some r' →
       (⟨1, [(0, ⟨3, "c", [], some [("score", 1)], 0, 0, 1⟩)], []⟩ : Island).grid.lookup b = some r' ∨
         (r'.island_id = (⟨1, [(0, ⟨3, "c", [], some [("score", 1)], 0, 0, 1⟩)], []⟩ : Island).id ∧
           ∃ p ∈ topElites 1 ⟨0, [(0, ⟨2, "m", [], some [("score", 5)], 0, 0, 0⟩)], []⟩,
             r' = retag 1 p)) ∧
    findIsland 0 (migratePair 1 0 1
      ⟨[⟨0, [(0, ⟨2, "m", [], some [("score", 5)], 0, 0, 0⟩)], []⟩,
        ⟨1, [(0, ⟨3, "c", [], some [("score", 1)], 0, 0, 1⟩)], []⟩], []⟩) =
      some ⟨0, [(0, ⟨2, "m", [], some [("score", 5)], 0, 0, 0⟩)], []⟩ :=
  migration_safe 1 0 1
    ⟨[⟨0, [(0, ⟨2, "m", [], some [("score", 5)], 0, 0, 0⟩)], []⟩,
      ⟨1, [(0, ⟨3, "c", [], some [("score", 1)], 0, 0, 1⟩)], []⟩], []⟩
    ⟨0, [(0, ⟨2, "m", [], some [("score", 5)], 0, 0, 0⟩)], []⟩
    ⟨1, [(0, ⟨3, "c", [], some [("score", 1)], 0, 0, 1⟩)], []⟩
    (by decide) (by decide) (by decide)

/-! ## Generation Controller lemmas -/

theorem runAttempt_of_evalFail (sampler : SamplerFn) (evalFn : EvaluatorFn)
    (iid pct : Nat) (st : CtrlState) (h : ∀ c, evalFn c = none) :
    runAttempt sampler evalFn iid pct false st = failAttempt st := by
  rw [runAttempt]
  simp only [Bool.false_eq_true, if_false]
  cases hs : sampler (attemptParents iid pct st) with
  | none => rfl
  | some code =>
      dsimp only
      rw [h code]

/-- C7: If the external evaluator fails on every attempt, then after `n`
attempts the store is exactly the original (only the original seed records
are present), the run reports `n` failed attempts and `0` successful
insertions, and no per-attempt failure aborts the controller's loop: all
`n` budgeted attempts are issued and the loop terminates only by budget
exhaustion. -/
theorem run_isolates_failures (sampler : SamplerFn) (evalFn : EvaluatorFn)
    (iid pct : Nat) (h : ∀ c, evalFn c = none) :
    ∀ (n : Nat) (st : CtrlState),
      runLoop sampler evalFn iid pct n st =
        ⟨st.store,
         ⟨st.stats.attempts + n, st.stats.succeeded, st.stats.failed + n⟩,
         lcgIter n st.seed, st.nextId⟩ := by
  intro n
  induction n with
  | zero =>
      intro st
      cases st with
      | mk store stats seed nextId =>
          cases stats
          rfl
  | succ n ih =>
      intro st
      rw [runLoop, runAttempt_of_evalFail sampler evalFn iid pct st h, ih]
      rw [failAttempt]
      simp only [CtrlState.mk.injEq, RunStats.mk.injEq, lcgIter, true_and,
        and_true]
      omega

/-- Witness for C7: three attempts against an always-failing evaluator
leave a one-island seeded store untouched and report three failures. -/
theorem run_isolates_failures_witness :
    runLoop (fun _ => some "x") (fun _ => none) 0 50 3
      ⟨⟨[⟨0, [(0, ⟨0, "seed", [], some [("score", 1)], 0, 0, 0⟩)],
          [⟨0, "seed", [], some [("score", 1)], 0, 0, 0⟩]⟩], []⟩,
        ⟨0, 0, 0⟩, 7, 1⟩ =
      ⟨⟨[⟨0, [(0, ⟨0, "seed", [], some [("score", 1)], 0, 0, 0⟩)],
          [⟨0, "seed", [], some [("score", 1)], 0, 0, 0⟩]⟩], []⟩,
        ⟨3, 0, 3⟩, lcgIter 3 7, 1⟩ :=
  run_isolates_failures (fun _ => some "x") (fun _ => none) 0 50
    (fun _ => rfl) 3
    ⟨⟨[⟨0, [(0, ⟨0, "seed", [], some [("score", 1)], 0, 0, 0⟩)],
        [⟨0, "seed", [], some [("score", 1)], 0, 0, 0⟩]⟩], []⟩,
      ⟨0, 0, 0⟩, 7, 1⟩

theorem mem_gridSet (b : Nat) (r : ProgramRecord) :
    ∀ (g : Grid) (p : Nat × ProgramRecord),
      p ∈ gridSet b r g → p = (b, r) ∨ p ∈ g := by
  intro g
  induction g with
  | nil =>
      intro p hp
      simp only [gridSet, List.mem_singleton] at hp
      exact Or.inl hp
  | cons q g ih =>
      intro p hp
      by_cases hq : q.1 = b
      · simp only [gridSet, hq, if_true, List.mem_cons] at hp
        rcases hp with rfl | hp
        · exact Or.inl rfl
        · exact Or.inr (List.mem_cons_of_mem _ hp)
      · simp only [gridSet, hq, if_false, List.mem_cons] at hp
        rcases hp with rfl | hp
        · exact Or.inr (List.mem_cons_self _ _)
        · rcases ih p hp with h' | h'
          · exact Or.inl h'
          · exact Or.inr (List.mem_cons_of_mem _ h')

theorem mem_setIsland (i' : Island) :
    ∀ (l : List Island) (j : Island), j ∈ setIsland i' l → j = i' ∨ j ∈ l := by
  intro l
  induction l with
  | nil =>
      intro j hj
      exact absurd hj (by simp [setIsland])
  | cons k l ih =>
      intro j hj
      by_cases hk : k.id = i'.id
      · simp only [setIsland, hk, if_true, List.mem_cons] at hj
        rcases hj with rfl | hj
        · exact Or.inl rfl
        · exact Or.inr (List.mem_cons_of_mem _ hj)
      · simp only [setIsland, hk, if_false, List.mem_cons] at hj
        rcases hj with rfl | hj
        · exact Or.inr (List.mem_cons_self _ _)
        · rcases ih j hj with h' | h'
          · exact Or.inl h'
          · exact Or.inr (List.mem_cons_of_mem _ h')

theorem islandInsert_grid_cases (r : ProgramRecord) (i : Island) :
    (islandInsert r i).1.grid = gridSet r.feature_signature r i.grid ∨
      (islandInsert r i).1.grid = i.grid := by
  rw [islandInsert]
  cases hfs : i.grid.lookup r.feature_signature with
  | none => exact Or.inl rfl
  | some o =>
      by_cases hlt : primary_metric o < primary_metric r
      · exact Or.inl (by simp [hlt])
      · exact Or.inr (by simp [hlt])

theorem storeInsert_allScored (r : ProgramRecord) (iid : Nat) (s s' : Store)
    (out : Outcome) (hs : allScored s) (hr : scored r = true)
    (h : storeInsert r iid s = some (s', out)) : allScored s' := by
  rw [storeInsert] at h
  cases hfi : findIsland iid s with
  | none => rw [hfi] at h; cases h
  | some isl =>
      rw [hfi] at h
      simp only [Option.some.injEq, Prod.mk.injEq] at h
      obtain ⟨hs', _⟩ := h
      subst hs'
      intro isl' hmem p hp
      rcases mem_setIsland _ _ _ hmem with rfl | hmem'
      · rcases islandInsert_grid_cases r isl with hg | hg
        · rw [hg] at hp
          rcases mem_gridSet _ _ _ _ hp with rfl | hp'
          · exact hr
          · exact hs isl (List.mem_of_find?_eq_some hfi) p hp'
        · rw [hg] at hp
          exact hs isl (List.mem_of_find?_eq_some hfi) p hp
      · exact hs isl' hmem' p hp

/-- C8: An attempt that is cancelled or fails leaves the Population Store
exactly as it was: every attempt either fully applies one `storeInsert` or
applies nothing; and after any attempt every bucket's occupant is a
fully-formed, scored Program Record. -/
theorem attempt_atomic (sampler : SamplerFn) (evalFn : EvaluatorFn)
    (iid pct : Nat) (c : Bool) (st : CtrlState) (hsc : allScored st.store) :
    ((runAttempt sampler evalFn iid pct c st).store = st.store ∨
      ∃ r out, storeInsert r iid st.store =
        some ((runAttempt sampler evalFn iid pct c st).store, out)) ∧
    allScored (runAttempt sampler evalFn iid pct c st).store := by
  cases c with
  | true => exact ⟨Or.inl rfl, hsc⟩
  | false =>
      rw [runAttempt]
      simp only [Bool.false_eq_true, if_false]
      cases hs : sampler (attemptParents iid pct st) with
      | none => exact ⟨Or.inl rfl, hsc⟩
      | some code =>
          dsimp only
          cases he : evalFn code with
          | none => exact ⟨Or.inl rfl, hsc⟩
          | some ms =>
              dsimp only
              cases hins : storeInsert
                  (freshRecord st.nextId code ms (attemptParents iid pct st) iid)
                  iid st.store with
              | none => exact ⟨Or.inl rfl, hsc⟩
              | some step =>
                  dsimp only
                  refine ⟨Or.inr ⟨freshRecord st.nextId code ms
                    (attemptParents iid pct st) iid, step.2, ?_⟩, ?_⟩
                  · rw [hins]
                  · exact storeInsert_allScored
                      (freshRecord st.nextId code ms
                        (attemptParents iid pct st) iid)
                      iid st.store step.1 step.2 hsc rfl hins

/-- Witness for C8: a concrete attempt over a scored single-island store
(with an always-failing sampler) applies nothing and keeps every occupant
scored. -/
theorem attempt_atomic_witness :
    ((runAttempt (fun _ => none) (fun _ => none) 0 50 false
        ⟨⟨[⟨0, [(0, ⟨0, "seed", [], some [("score", 1)], 0, 0, 0⟩)], []⟩], []⟩,
          ⟨0, 0, 0⟩, 7, 1⟩).store =
      (⟨⟨[⟨0, [(0, ⟨0, "seed", [], some [("score", 1)], 0, 0, 0⟩)], []⟩], []⟩,
          ⟨0, 0, 0⟩, 7, 1⟩ : CtrlState).store ∨
      ∃ r out, storeInsert r 0
        (⟨⟨[⟨0, [(0, ⟨0, "seed", [], some [("score", 1)], 0, 0, 0⟩)], []⟩], []⟩,
          ⟨0, 0, 0⟩, 7, 1⟩ : CtrlState).store =
        some ((runAttempt (fun _ => none) (fun _ => none) 0 50 false
          ⟨⟨[⟨0, [(0, ⟨0, "seed", [], some [("score", 1)], 0, 0, 0⟩)], []⟩], []⟩,
            ⟨0, 0, 0⟩, 7, 1⟩).store, out)) ∧
    allScored (runAttempt (fun _ => none) (fun _ => none) 0 50 false
      ⟨⟨[⟨0, [(0, ⟨0, "seed", [], some [("score", 1)], 0, 0, 0⟩)], []⟩], []⟩,
        ⟨0, 0, 0⟩, 7, 1⟩).store :=
  attempt_atomic (fun _ => none) (fun _ => none) 0 50 false
    ⟨⟨[⟨0, [(0, ⟨0, "seed", [], some [("score", 1)], 0, 0, 0⟩)], []⟩], []⟩,
      ⟨0, 0, 0⟩, 7, 1⟩ (by decide)

/-- C9: The Selection Policy is a deterministic function of the island
state, the number of parents `k`, the configuration and the random seed:
two runs with equal inputs select the same sequence of parents. -/
theorem selection_deterministic (i i' : Island) (k k' pct pct' seed seed' : Nat)
    (h1 : i = i') (h2 : k = k') (h3 : pct = pct') (h4 : seed = seed') :
    sample_parents i k pct seed = sample_parents i' k' pct' seed' := by
  subst h1
  subst h2
  subst h3
  subst h4
  rfl

/-- Witness for C9: two identically-seeded selections over a concrete
island coincide. -/
theorem selection_deterministic_witness :
    sample_parents ⟨0, [(0, ⟨0, "s", [], some [("score", 1)], 0, 0, 0⟩)], []⟩
        2 50 7 =
      sample_parents ⟨0, [(0, ⟨0, "s", [], some [("score", 1)], 0, 0, 0⟩)], []⟩
        2 50 7 :=
  selection_deterministic
    ⟨0, [(0, ⟨0, "s", [], some [("score", 1)], 0, 0, 0⟩)], []⟩
    ⟨0, [(0, ⟨0, "s", [], some [("score", 1)], 0, 0, 0⟩)], []⟩
    2 2 50 50 7 7 rfl rfl rfl rfl

/-! ## The package surface -/

/-- C1 (counterexample): it is not the case that `OpenEvolve` and
`run_evolution` are the only public entry points: `__all__` contains a
third name, `__version__`. -/
theorem public_surface_not_two :
    ¬ (∀ x ∈ __all__, x = "OpenEvolve" ∨ x = "run_evolution") := by
  decide

/-- C1 (amended): the package's visible surface re-exports the controller
entry point `OpenEvolve`, the convenience function `run_evolution`, and
additionally the version string `__version__` — exactly three public
names. -/
theorem public_surface_amended :
    "OpenEvolve" ∈ __all__ ∧ "run_evolution" ∈ __all__ ∧
      "__version__" ∈ __all__ ∧ __all__.length = 3 := by
  decide

/-- C10: the package's public export list `__all__` contains exactly the
three names `"OpenEvolve"`, `"__version__"`, `"run_evolution"`, in that
order. -/
theorem all_exports_exact :
    __all__ = ["OpenEvolve", "__version__", "run_evolution"] := rfl

end OpenEvolveSpec
